import Mathlib

/-!
Verification of the bilingual subtitle styling and video-compositing pipeline
(`src/core/subtitle_processor.py`).

Text is modelled as `List Char`.  Python `float` arithmetic on font-size
factors is modelled exactly over `ℚ` (the claims under scrutiny do not depend
on binary floating-point rounding).  File-system state and the external
process are modelled by explicit environment records carrying the observable
outcomes (exit code, file existence, file size), and the functions under test
are translated statement by statement from the source.
-/

/-- `CN_RE = re.compile(r"[\u4e00-\u9fff]")`: a character matches the Chinese
detection regex iff its code point lies in the CJK unified range. -/
def isCJKChar (c : Char) : Bool :=
  0x4e00 ≤ c.toNat && c.toNat ≤ 0x9fff

/-- `bool(CN_RE.search(s))`: some character of `s` is in the CJK range. -/
def containsCJK (s : List Char) : Bool :=
  s.any isCJKChar

/-- One pass of `re.sub(r"\{.*?\}", "", text)`.  The first argument is
`none` outside a candidate tag and `some buf` (reversed chars read so far,
starting with `'{'`) inside one.  A candidate tag closes at the first `'}'`;
a newline aborts the candidate (Python `.` does not match `\n`), and an
unterminated candidate is emitted verbatim.  No `'}'` can occur between an
inner `'{'` and the abort point, so inner braces need no rescan. -/
def stripTagsAux : Option (List Char) → List Char → List Char
  | none, [] => []
  | some buf, [] => buf.reverse
  | none, c :: rest =>
    if c = '{' then stripTagsAux (some [c]) rest
    else c :: stripTagsAux none rest
  | some buf, c :: rest =>
    if c = '}' then stripTagsAux none rest
    else if c = '\n' then buf.reverse ++ '\n' :: stripTagsAux none rest
    else stripTagsAux (some (c :: buf)) rest

/-- `clean_text = re.sub(r"\{.*?\}", "", event.text)`. -/
def stripTags (s : List Char) : List Char :=
  stripTagsAux none s

/-- ASCII whitespace stripped by Python `str.strip()` (the full Python set
also covers non-ASCII Unicode spaces, which never arise here). -/
def isPySpace (c : Char) : Bool :=
  c = ' ' || c = '\t' || c = '\n' || c = '\r' || c = '\x0b' || c = '\x0c'

/-- `clean_text.strip()`. -/
def pyStrip (s : List Char) : List Char :=
  ((s.dropWhile isPySpace).reverse.dropWhile isPySpace).reverse

/-- Prepend a character onto the first chunk of a split result. -/
def consHead (c : Char) : List (List Char) → List (List Char)
  | [] => [[c]]
  | l :: ls => (c :: l) :: ls

/-- `re.split(r"\\[Nn]|\n", s)`: leftmost scan, a literal backslash followed
by `N` or `n` (two characters) or a newline (one character) separates lines;
a backslash followed by anything else is ordinary text. -/
def splitSubLines : List Char → List (List Char)
  | [] => [[]]
  | '\n' :: rest => [] :: splitSubLines rest
  | '\\' :: 'N' :: rest => [] :: splitSubLines rest
  | '\\' :: 'n' :: rest => [] :: splitSubLines rest
  | c :: rest => consHead c (splitSubLines rest)

/-- Decimal digit character, as produced by Python `str` on `int`. -/
def natDigitChar : Nat → Char
  | 0 => '0' | 1 => '1' | 2 => '2' | 3 => '3' | 4 => '4'
  | 5 => '5' | 6 => '6' | 7 => '7' | 8 => '8' | _ => '9'

/-- Fueled decimal conversion accumulator. -/
def natToCharsAux : Nat → Nat → List Char → List Char
  | 0, _, acc => acc
  | fuel + 1, n, acc =>
    if n < 10 then natDigitChar n :: acc
    else natToCharsAux fuel (n / 10) (natDigitChar (n % 10) :: acc)

/-- Python `str(n)` for a natural number (no sign, no leading zeros). -/
def natToChars (n : Nat) : List Char :=
  natToCharsAux (n + 1) n []

/-- Spec §4.2 character weight: 2 for CJK/fullwidth or any code point above
127, else 1 (used only to state the claims; the source has no wrap code). -/
def specCharWeight (c : Char) : Nat :=
  if 127 < c.toNat then 2 else 1

/-- Spec §4.2 / §4.6 "visual weight": sum of per-character weights. -/
def weightedLen (s : List Char) : Nat :=
  (s.map specCharWeight).sum

/-- `ZH_FAM = "Microsoft YaHei"`. -/
def ZH_FAM : List Char := "Microsoft YaHei".toList

/-- `EN_FAM = "Arial"`. -/
def EN_FAM : List Char := "Arial".toList

/-- Default `chinese_color` argument. -/
def defaultZhColor : List Char := "&H00C3FF".toList

/-- Default `other_color` argument. -/
def defaultOtherColor : List Char := "&H00FFFFFF".toList

/-- The inline ASS override tag
`fr"{{\fn{fam}\fs{fs}{bold}\c{color}}}"` with `bold` rendered `\b1`/`\b0`. -/
def styleTag (fam : List Char) (fs : Nat) (bold : Bool) (color : List Char) :
    List Char :=
  '{' :: '\\' :: 'f' :: 'n' :: fam ++ '\\' :: 'f' :: 's' :: natToChars fs ++
    '\\' :: 'b' :: (if bold then '1' else '0') :: '\\' :: 'c' :: color ++ ['}']

/-- Python `int()` truncation of a rational toward zero. -/
def pyInt (q : ℚ) : ℤ :=
  Int.tdiv q.num (q.den : ℤ)

/-- `int(video_height * factor)` as a natural number (factors are
non-negative in every call site). -/
def fsNat (h : Nat) (factor : ℚ) : Nat :=
  (pyInt ((h : ℚ) * factor)).toNat

/-- `format_line` inside `process_bilingual_event`: family, size, color and
the bold flag all follow the detected language of the line. -/
def format_line (h : Nat) (zhF otherF : ℚ) (zhC otherC : List Char)
    (text : List Char) (is_chinese : Bool) : List Char :=
  styleTag (if is_chinese then ZH_FAM else EN_FAM)
    (if is_chinese then fsNat h zhF else fsNat h otherF)
    is_chinese
    (if is_chinese then zhC else otherC) ++ text

/-- `process_bilingual_event` (src/core/subtitle_processor.py:60-106): strip
tags, strip outer whitespace, split on `\N`/`\n`/newline; with two or more
lines style the first two (language-detected bold/size/color) and join with
`\N`, dropping any further lines; with one line style it with bold forced on;
the zero-line case (unreachable: the split never returns an empty list)
leaves the text unchanged.  Returns the new event text. -/
def process_bilingual_event (text : List Char) (h : Nat) (zhF otherF : ℚ)
    (zhC otherC : List Char) : List Char :=
  let lines := splitSubLines (pyStrip (stripTags text))
  match lines with
  | l0 :: l1 :: _ =>
    format_line h zhF otherF zhC otherC l0 (containsCJK l0) ++
      '\\' :: 'N' :: format_line h zhF otherF zhC otherC l1 (containsCJK l1)
  | [l0] =>
    styleTag (if containsCJK l0 then ZH_FAM else EN_FAM)
      (if containsCJK l0 then fsNat h zhF else fsNat h otherF)
      true
      (if containsCJK l0 then zhC else otherC) ++ l0
  | [] => text

/-- Strip one leading `{...}` override tag from a styled run (claim-side
accessor used to read emitted runs back out of an event text). -/
def stripLeadTag (l : List Char) : List Char :=
  match l with
  | '{' :: rest => (rest.dropWhile (fun c => !(c = '}'))).drop 1
  | _ => l

/-- The emitted display lines of a styled event text: split on the forced
line-break markers and drop each line's override tag. -/
def runsOf (out : List Char) : List (List Char) :=
  (splitSubLines out).map stripLeadTag

/-- Read the first `\b1`/`\b0` bold flag occurring in a styled run. -/
def findBold : List Char → Option Bool
  | '\\' :: 'b' :: '1' :: _ => some true
  | '\\' :: 'b' :: '0' :: _ => some false
  | _ :: rest => findBold rest
  | [] => none

/-- The bold flags of the styled runs of an event text, in order. -/
def boldsOf (out : List Char) : List (Option Bool) :=
  (splitSubLines out).map findBold

/-- The raw lines the styling step works on:
`re.split(r"\\[Nn]|\n", re.sub(r"\{.*?\}", "", text).strip())`. -/
def linesOf (text : List Char) : List (List Char) :=
  splitSubLines (pyStrip (stripTags text))

/-- A `pysubs2` subtitle event: millisecond start/end times and a text. -/
structure SubEvent where
  start : Nat
  end_ : Nat
  text : List Char
deriving DecidableEq

/-- `probe_video_size` (src/core/subtitle_processor.py:12-34).  The
subprocess-and-JSON part is abstracted into its observable outcome: `some
(w, h)` when ffprobe ran and its output parsed, `none` on any failure (tool
missing, non-video file, malformed output), in which case the caught
exception yields the fallback `(1920, 1080)`.  The function never raises. -/
def probe_video_size (parsed : Option (Nat × Nat)) : Nat × Nat :=
  match parsed with
  | some wh => wh
  | none => (1920, 1080)

/-- `convert_srt_to_ass` (src/core/subtitle_processor.py:109-135), event
part: probe the geometry and apply `process_bilingual_event` to every event.
File loading/saving and the base-style block (which the claims do not
mention) are not modelled. -/
def convert_srt_to_ass (parsed : Option (Nat × Nat)) (events : List SubEvent)
    (zhF otherF : ℚ) (zhC otherC : List Char) : List SubEvent :=
  events.map fun e =>
    { e with
      text := process_bilingual_event e.text (probe_video_size parsed).2
        zhF otherF zhC otherC }

/-- Environment of one `create_preview_frame` call: the validation
outcomes, the loaded events, the probe outcome, the style parameters, and
the state of the output image after the external process ran. -/
structure PreviewEnv where
  ffmpegExists : Bool
  videoExists : Bool
  subExists : Bool
  events : List SubEvent
  probeResult : Option (Nat × Nat)
  zhF : ℚ
  otherF : ℚ
  zhC : List Char
  otherC : List Char
  outputImageExists : Bool
  outputImageSize : Nat

/-- Observable outcome of one `create_preview_frame` call. -/
structure PreviewResult where
  ok : Bool
  first_sub : Option SubEvent
  seekTarget : Option ℚ
  trackEvent : Option SubEvent
  tempCreated : Bool
  tempExistsAfter : Bool
deriving DecidableEq

/-- `create_preview_frame` (src/core/subtitle_processor.py:138-260) on its
non-exception paths: validate the three input paths, require a non-empty
event list, select `subs.events[0]`, compute
`seek_timestamp = first_sub.start / 1000.0`, clone the first event with
`start = 0`, `end = 5000` and bilingual styling at the probed height, save
the temporary track, run the tool, remove the temporary track, and succeed
iff the output image exists with non-zero size.  The QProcess/timeout
mechanics and the `except` path (which returns `False`) are not modelled;
`os.remove` is modelled as succeeding. -/
def create_preview_frame (env : PreviewEnv) : PreviewResult :=
  if !env.ffmpegExists then
    ⟨false, none, none, none, false, false⟩
  else if !env.videoExists then
    ⟨false, none, none, none, false, false⟩
  else if !env.subExists then
    ⟨false, none, none, none, false, false⟩
  else
    match env.events with
    | [] => ⟨false, none, none, none, false, false⟩
    | first :: _ =>
      let hgt := (probe_video_size env.probeResult).2
      let seek : ℚ := (first.start : ℚ) / 1000
      let pe : SubEvent :=
        { start := 0, end_ := 5000,
          text := process_bilingual_event first.text hgt env.zhF env.otherF
            env.zhC env.otherC }
      ⟨env.outputImageExists && decide (0 < env.outputImageSize),
        some first, some seek, some pe, true, false⟩

/-- The three distinguishable error messages `SubtitleEmbedder` can emit. -/
inductive ErrKind where
  | convertFailed : ErrKind
  | emptyOutput : Int → ErrKind
  | ffmpegFailed : Int → ErrKind
deriving DecidableEq

/-- A callback emission of `SubtitleEmbedder` (progress / finished / error). -/
inductive Signal where
  | progress : Nat → Signal
  | finishedSig : List Char → Signal
  | errorSig : ErrKind → Signal
deriving DecidableEq

/-- Environment of one `SubtitleEmbedder.embed` run.  `video_path` and
`output_path` stand for `os.path.abspath(...).replace("\\", "/")` of the
two arguments.  `convertRaises` is the outcome of `convert_srt_to_ass`
(with `tempCreatedBeforeRaise` recording whether the temporary track file
existed when the exception was raised); `exitCode`, `outputExists` and
`outputSize` describe the finished process and the output file when
`_on_finished` fires. -/
structure EmbedEnv where
  video_path : List Char
  output_path : List Char
  convertRaises : Bool
  tempCreatedBeforeRaise : Bool
  exitCode : Int
  outputExists : Bool
  outputSize : Nat
deriving DecidableEq

/-- Observable outcome of one embed run. -/
structure EmbedResult where
  signals : List Signal
  outputVideo : List Char
  tempExistsAfter : Bool
  outputExistsAfter : Bool
deriving DecidableEq

/-- `str.lower()` on a path (ASCII case folding, which is what the paths
exercised here contain). -/
def lowerList (l : List Char) : List Char :=
  l.map Char.toLower

/-- Index of the last occurrence of `c`, as in Python `str.rfind`. -/
def lastIndexOf (c : Char) (l : List Char) : Option Nat :=
  (l.reverse.findIdx? (fun d => d = c)).map (fun i => l.length - 1 - i)

/-- `os.path.splitext` on a slash-normalized path: split at the last dot of
the basename unless the basename up to that dot consists only of dots. -/
def splitext (p : List Char) : List Char × List Char :=
  let sepEnd := match lastIndexOf '/' p with
    | some i => i + 1
    | none => 0
  match lastIndexOf '.' p with
  | some d =>
    if sepEnd ≤ d ∧ ((p.drop sepEnd).take (d - sepEnd)).any (fun c => !(c = '.'))
    then (p.take d, p.drop d)
    else (p, [])
  | none => (p, [])

/-- The `Ensure output != input` redirection in `embed`
(src/core/subtitle_processor.py:324-328): when the normalized paths agree
case-insensitively, `_new` is appended before the extension. -/
def redirectTarget (video output : List Char) : List Char :=
  if lowerList video = lowerList output then
    (splitext output).1 ++ "_new".toList ++ (splitext output).2
  else output

/-- `SubtitleEmbedder._on_finished` (src/core/subtitle_processor.py:371-400)
after the temp-file cleanup: returns the emitted signals and whether the
output file exists afterwards.  `sizeOnDisk` is only consulted when the file
exists, mirroring the guarded `os.path.getsize` call. -/
def on_finished (outputVideo : List Char) (retryMode : Bool) (code : Int)
    (outputExists : Bool) (sizeOnDisk : Nat) : List Signal × Bool :=
  let output_size := if outputExists then sizeOnDisk else 0
  if (code = 0 ∨ code = -22) ∧ outputExists = true ∧ 0 < output_size then
    ([Signal.progress 100, Signal.finishedSig outputVideo], outputExists)
  else if retryMode = false ∧ output_size = 0 then
    ([Signal.errorSig (ErrKind.emptyOutput code)], outputExists)
  else if outputExists = true ∧ output_size = 0 then
    ([Signal.errorSig (ErrKind.ffmpegFailed code)], false)
  else
    ([Signal.errorSig (ErrKind.ffmpegFailed code)], outputExists)

/-- One full `SubtitleEmbedder.embed` run
(src/core/subtitle_processor.py:282-351 and the `_on_finished` handler):
on a conversion exception, emit the conversion error and stop — the process
is never launched and no cleanup runs on this path; otherwise redirect the
output path if it collides with the input, launch the process, and let
`_on_finished` (with `_retry_mode` as reset by `embed`, i.e. `False`) clean
up the temporary track and emit the terminal signals. -/
def embed_run (env : EmbedEnv) : EmbedResult :=
  if env.convertRaises then
    { signals := [Signal.errorSig ErrKind.convertFailed],
      outputVideo := env.output_path,
      tempExistsAfter := env.tempCreatedBeforeRaise,
      outputExistsAfter := env.outputExists }
  else
    let out := redirectTarget env.video_path env.output_path
    let fin := on_finished out false env.exitCode env.outputExists env.outputSize
    { signals := fin.1,
      outputVideo := out,
      tempExistsAfter := false,
      outputExistsAfter := fin.2 }

/-! ### Structural lemmas about the line-splitting scanner -/

/-- A text chunk containing no line-break marker: no newline and no
backslash immediately followed by `N` or `n`. -/
def NoBreakB : List Char → Bool
  | [] => true
  | '\n' :: _ => false
  | '\\' :: 'N' :: _ => false
  | '\\' :: 'n' :: _ => false
  | _ :: rest => NoBreakB rest

/-- A list that does not begin with `N` or `n` (safe to follow a trailing
backslash without forming a break marker). -/
def headSafeB : List Char → Bool
  | 'N' :: _ => false
  | 'n' :: _ => false
  | _ => true

/-- Append a prefix onto the first chunk of a split result. -/
def mapHeadApp (A : List Char) : List (List Char) → List (List Char)
  | [] => [A]
  | h :: t => (A ++ h) :: t

theorem consHead_mapHeadApp (c : Char) (A : List Char)
    (ls : List (List Char)) :
    consHead c (mapHeadApp A ls) = mapHeadApp (c :: A) ls := by
  cases ls <;> rfl

theorem splitSubLines_newline (rest : List Char) :
    splitSubLines ('\n' :: rest) = [] :: splitSubLines rest := rfl

theorem splitSubLines_bsN (rest : List Char) :
    splitSubLines ('\\' :: 'N' :: rest) = [] :: splitSubLines rest := rfl

theorem splitSubLines_bsn (rest : List Char) :
    splitSubLines ('\\' :: 'n' :: rest) = [] :: splitSubLines rest := rfl

theorem splitSubLines_cons_of_ne (c : Char) (rest : List Char)
    (h1 : ¬ c = '\n') (h2 : ¬ c = '\\') :
    splitSubLines (c :: rest) = consHead c (splitSubLines rest) := by
  rw [splitSubLines.eq_def]
  split <;> simp_all

theorem splitSubLines_bs_cons (d : Char) (rest : List Char)
    (h1 : ¬ d = 'N') (h2 : ¬ d = 'n') :
    splitSubLines ('\\' :: d :: rest) = consHead '\\' (splitSubLines (d :: rest)) := by
  rw [splitSubLines.eq_def]
  split <;>
    first
    | (rename_i heq; obtain ⟨rfl, rfl⟩ := heq; rfl)
    | simp_all

theorem consHead_ne_nil (c : Char) (ls : List (List Char)) :
    consHead c ls ≠ [] := by
  cases ls <;> simp [consHead]

theorem splitSubLines_ne_nil (s : List Char) : splitSubLines s ≠ [] := by
  cases s with
  | nil => simp [splitSubLines]
  | cons a rest =>
    by_cases h1 : a = '\n'
    · subst h1; rw [splitSubLines_newline]; exact List.cons_ne_nil _ _
    · by_cases h2 : a = '\\'
      · subst h2
        cases rest with
        | nil => decide
        | cons d rest' =>
          by_cases h3 : d = 'N'
          · subst h3; rw [splitSubLines_bsN]; exact List.cons_ne_nil _ _
          · by_cases h4 : d = 'n'
            · subst h4; rw [splitSubLines_bsn]; exact List.cons_ne_nil _ _
            · rw [splitSubLines_bs_cons d rest' h3 h4]; exact consHead_ne_nil _ _
      · rw [splitSubLines_cons_of_ne a rest h1 h2]; exact consHead_ne_nil _ _

theorem NoBreakB_newline (rest : List Char) :
    NoBreakB ('\n' :: rest) = false := rfl

theorem NoBreakB_bsN (rest : List Char) :
    NoBreakB ('\\' :: 'N' :: rest) = false := rfl

theorem NoBreakB_bsn (rest : List Char) :
    NoBreakB ('\\' :: 'n' :: rest) = false := rfl

theorem NoBreakB_cons_of_ne (c : Char) (rest : List Char)
    (h1 : ¬ c = '\n') (h2 : ¬ c = '\\') :
    NoBreakB (c :: rest) = NoBreakB rest := by
  rw [NoBreakB.eq_def]
  split <;> simp_all

theorem NoBreakB_bs_cons (d : Char) (rest : List Char)
    (h1 : ¬ d = 'N') (h2 : ¬ d = 'n') :
    NoBreakB ('\\' :: d :: rest) = NoBreakB (d :: rest) := by
  rw [NoBreakB.eq_def]
  split <;> simp_all

theorem headSafeB_cons_of_ne (b : Char) (l : List Char)
    (h1 : ¬ b = 'N') (h2 : ¬ b = 'n') :
    headSafeB (b :: l) = true := by
  rw [headSafeB.eq_def]
  split <;> simp_all

/-- Splitting a concatenation whose first part contains no break marker:
the first part fuses onto the head chunk of the remainder (provided a
trailing backslash of the first part cannot combine with the head of the
second into a break marker). -/
theorem splitSubLines_append (A B : List Char) (hA : NoBreakB A = true)
    (hj : A.getLast? = some '\\' → headSafeB B = true) :
    splitSubLines (A ++ B) = mapHeadApp A (splitSubLines B) := by
  induction A with
  | nil =>
    rcases hsB : splitSubLines B with _ | ⟨h, t⟩
    · exact absurd hsB (splitSubLines_ne_nil B)
    · rw [List.nil_append, hsB]; simp [mapHeadApp]
  | cons a A' ih =>
    by_cases h1 : a = '\n'
    · subst h1; rw [NoBreakB_newline] at hA; exact absurd hA (by simp)
    · by_cases h2 : a = '\\'
      · subst h2
        cases A' with
        | nil =>
          have hsafe : headSafeB B = true := hj rfl
          cases B with
          | nil =>
            decide
          | cons b B' =>
            have hb1 : ¬ b = 'N' := by
              intro hb; subst hb; simp [headSafeB] at hsafe
            have hb2 : ¬ b = 'n' := by
              intro hb; subst hb; simp [headSafeB] at hsafe
            rw [List.cons_append, List.nil_append,
              splitSubLines_bs_cons b B' hb1 hb2]
            rcases hsB : splitSubLines (b :: B') with _ | ⟨h, t⟩
            · exact absurd hsB (splitSubLines_ne_nil _)
            · simp [consHead, mapHeadApp]
        | cons d A'' =>
          have hd1 : ¬ d = 'N' := by
            intro hd; subst hd; rw [NoBreakB_bsN] at hA; exact absurd hA (by simp)
          have hd2 : ¬ d = 'n' := by
            intro hd; subst hd; rw [NoBreakB_bsn] at hA; exact absurd hA (by simp)
          have hA' : NoBreakB (d :: A'') = true := by
            rw [NoBreakB_bs_cons d A'' hd1 hd2] at hA; exact hA
          have hj' : (d :: A'').getLast? = some '\\' → headSafeB B = true := by
            intro hl; exact hj (by rw [List.getLast?_cons_cons]; exact hl)
          have step : splitSubLines (('\\' :: d :: A'') ++ B) =
              consHead '\\' (splitSubLines ((d :: A'') ++ B)) := by
            rw [List.cons_append, List.cons_append]
            rw [splitSubLines_bs_cons d (A'' ++ B) hd1 hd2]
          rw [step, ih hA' hj', consHead_mapHeadApp]
      · have hA' : NoBreakB A' = true := by
          rw [NoBreakB_cons_of_ne a A' h1 h2] at hA; exact hA
        have hj' : A'.getLast? = some '\\' → headSafeB B = true := by
          intro hl
          cases A' with
          | nil => simp at hl
          | cons b A'' => exact hj (by rw [List.getLast?_cons_cons]; exact hl)
        rw [List.cons_append, splitSubLines_cons_of_ne a (A' ++ B) h1 h2,
          ih hA' hj', consHead_mapHeadApp]

/-- A break-free chunk splits into itself alone. -/
theorem splitSubLines_of_noBreak (A : List Char) (hA : NoBreakB A = true) :
    splitSubLines A = [A] := by
  have := splitSubLines_append A [] hA (by intro _; rfl)
  simpa [splitSubLines, mapHeadApp] using this

/-- Splitting at an explicit `\N` separator after a break-free chunk. -/
theorem splitSubLines_append_sep (A C : List Char) (hA : NoBreakB A = true) :
    splitSubLines (A ++ '\\' :: 'N' :: C) = A :: splitSubLines C := by
  rw [splitSubLines_append A ('\\' :: 'N' :: C) hA (by intro _; rfl)]
  rw [splitSubLines_bsN]
  simp [mapHeadApp]

/-- The head chunk of a split either is empty or starts with the first
character of the input. -/
theorem splitSubLines_cons_shape (c : Char) (rest : List Char) :
    ∃ h t, splitSubLines (c :: rest) = h :: t ∧ (h = [] ∨ ∃ h₀, h = c :: h₀) := by
  by_cases h1 : c = '\n'
  · subst h1; exact ⟨[], splitSubLines rest, splitSubLines_newline rest, Or.inl rfl⟩
  · by_cases h2 : c = '\\'
    · subst h2
      cases rest with
      | nil => exact ⟨['\\'], [], by decide, Or.inr ⟨[], rfl⟩⟩
      | cons d rest' =>
        by_cases h3 : d = 'N'
        · subst h3; exact ⟨[], splitSubLines rest', splitSubLines_bsN rest', Or.inl rfl⟩
        · by_cases h4 : d = 'n'
          · subst h4; exact ⟨[], splitSubLines rest', splitSubLines_bsn rest', Or.inl rfl⟩
          · rcases hs : splitSubLines (d :: rest') with _ | ⟨h0, t0⟩
            · exact absurd hs (splitSubLines_ne_nil _)
            · exact ⟨'\\' :: h0, t0,
                by rw [splitSubLines_bs_cons d rest' h3 h4, hs]; rfl,
                Or.inr ⟨h0, rfl⟩⟩
    · rcases hs : splitSubLines rest with _ | ⟨h0, t0⟩
      · exact absurd hs (splitSubLines_ne_nil _)
      · exact ⟨c :: h0, t0,
          by rw [splitSubLines_cons_of_ne c rest h1 h2, hs]; rfl,
          Or.inr ⟨h0, rfl⟩⟩

/-- Every chunk produced by the splitter is break-free (the separators are
consumed, and a surviving backslash is never followed by `N`/`n` inside a
chunk). -/
theorem noBreak_of_mem_splitSubLines (s : List Char) :
    ∀ l ∈ splitSubLines s, NoBreakB l = true := by
  induction s using splitSubLines.induct with
  | case1 =>
    intro l hl
    simp [splitSubLines] at hl
    subst hl; rfl
  | case2 rest ih =>
    intro l hl
    rw [splitSubLines_newline] at hl
    rcases List.mem_cons.mp hl with rfl | hl
    · rfl
    · exact ih l hl
  | case3 rest ih =>
    intro l hl
    rw [splitSubLines_bsN] at hl
    rcases List.mem_cons.mp hl with rfl | hl
    · rfl
    · exact ih l hl
  | case4 rest ih =>
    intro l hl
    rw [splitSubLines_bsn] at hl
    rcases List.mem_cons.mp hl with rfl | hl
    · rfl
    · exact ih l hl
  | case5 c rest hx1 hx2 hx3 ih =>
    intro l hl
    have hc1 : ¬ c = '\n' := fun h => hx1 h
    by_cases h2 : c = '\\'
    · subst h2
      cases rest with
      | nil =>
        simp [splitSubLines, consHead] at hl
        subst hl; rfl
      | cons d rest' =>
        have hd1 : ¬ d = 'N' := fun hd => hx2 rest' rfl (by rw [hd])
        have hd2 : ¬ d = 'n' := fun hd => hx3 rest' rfl (by rw [hd])
        rw [splitSubLines_bs_cons d rest' hd1 hd2] at hl
        rcases hs : splitSubLines (d :: rest') with _ | ⟨h0, t0⟩
        · exact absurd hs (splitSubLines_ne_nil _)
        · rw [hs] at hl
          simp only [consHead] at hl
          rcases List.mem_cons.mp hl with rfl | hl
          · obtain ⟨h', t', hst, hsh⟩ := splitSubLines_cons_shape d rest'
            rw [hs] at hst
            obtain ⟨rfl, rfl⟩ : h0 = h' ∧ t0 = t' := by
              constructor <;> injection hst
            rcases hsh with rfl | ⟨h₀, rfl⟩
            · rfl
            · rw [NoBreakB_bs_cons d h₀ hd1 hd2]
              exact ih (d :: h₀) (by rw [hs]; exact List.mem_cons_self _ _)
          · exact ih l (by rw [hs]; exact List.mem_cons_of_mem _ hl)
    · rw [splitSubLines_cons_of_ne c rest hc1 h2] at hl
      rcases hs : splitSubLines rest with _ | ⟨h0, t0⟩
      · exact absurd hs (splitSubLines_ne_nil _)
      · rw [hs] at hl
        simp only [consHead] at hl
        rcases List.mem_cons.mp hl with rfl | hl
        · rw [NoBreakB_cons_of_ne c h0 hc1 h2]
          exact ih h0 (by rw [hs]; exact List.mem_cons_self _ _)
        · exact ih l (by rw [hs]; exact List.mem_cons_of_mem _ hl)

/-! ### Characters that are inert inside an override tag -/

/-- Characters that can sit inside an override tag without disturbing the
scanners: not a backslash, not a newline, not a closing brace. -/
def inertChar (c : Char) : Bool :=
  !(c = '\\') && !(c = '\n') && !(c = '}')

theorem all_imp {p q : Char → Bool} (h : ∀ c, p c = true → q c = true)
    (l : List Char) : l.all p = true → l.all q = true := by
  intro hl
  rw [List.all_eq_true] at *
  exact fun c hc => h c (hl c hc)

theorem inertChar_spec (c : Char) (h : inertChar c = true) :
    ¬ c = '\\' ∧ ¬ c = '\n' ∧ ¬ c = '}' := by
  have h' := h
  simp [inertChar] at h'
  exact ⟨h'.1.1, h'.1.2, h'.2⟩

theorem natDigitChar_inert (k : Nat) : inertChar (natDigitChar k) = true := by
  rcases k with _|_|_|_|_|_|_|_|_|k <;> rfl

theorem natToCharsAux_all (P : Char → Bool) (hP : ∀ k, P (natDigitChar k) = true) :
    ∀ (fuel n : Nat) (acc : List Char), acc.all P = true →
      (natToCharsAux fuel n acc).all P = true
  | 0, _, _, h => h
  | fuel + 1, n, acc, h => by
    simp only [natToCharsAux]
    split
    · simp [List.all_cons, hP n, h]
    · exact natToCharsAux_all P hP fuel (n / 10) _ (by simp [List.all_cons, hP (n % 10), h])

theorem natToChars_all (P : Char → Bool) (hP : ∀ k, P (natDigitChar k) = true)
    (n : Nat) : (natToChars n).all P = true :=
  natToCharsAux_all P hP (n + 1) n [] rfl

theorem NoBreakB_append_inert (A B : List Char) (h : A.all inertChar = true) :
    NoBreakB (A ++ B) = NoBreakB B := by
  induction A with
  | nil => rfl
  | cons a A' ih =>
    rw [List.all_cons, Bool.and_eq_true] at h
    obtain ⟨ha, hA'⟩ := h
    obtain ⟨h1, h2, _⟩ := inertChar_spec a ha
    rw [List.cons_append, NoBreakB_cons_of_ne a _ h2 h1, ih hA']

theorem if_bold_ne_nl (b : Bool) : ¬ (if b then '1' else '0') = '\n' := by
  cases b <;> decide

theorem if_bold_ne_bs (b : Bool) : ¬ (if b then '1' else '0') = '\\' := by
  cases b <;> decide

/-- Scanning a generated override tag for break markers finds none: the tag
is transparent to the line splitter. -/
theorem NoBreakB_styleTag_append (fam color l : List Char) (fs : Nat) (b : Bool)
    (hfam : fam.all inertChar = true) (hcol : color.all inertChar = true) :
    NoBreakB (styleTag fam fs b color ++ l) = NoBreakB l := by
  have hdig : (natToChars fs).all inertChar = true :=
    natToChars_all inertChar natDigitChar_inert fs
  simp only [styleTag, List.cons_append, List.append_assoc, List.nil_append,
    List.singleton_append]
  rw [NoBreakB_cons_of_ne '{' _ (by decide) (by decide)]
  rw [NoBreakB_bs_cons 'f' _ (by decide) (by decide)]
  rw [NoBreakB_cons_of_ne 'f' _ (by decide) (by decide)]
  rw [NoBreakB_cons_of_ne 'n' _ (by decide) (by decide)]
  rw [NoBreakB_append_inert fam _ hfam]
  rw [NoBreakB_bs_cons 'f' _ (by decide) (by decide)]
  rw [NoBreakB_cons_of_ne 'f' _ (by decide) (by decide)]
  rw [NoBreakB_cons_of_ne 's' _ (by decide) (by decide)]
  rw [NoBreakB_append_inert _ _ hdig]
  rw [NoBreakB_bs_cons 'b' _ (by decide) (by decide)]
  rw [NoBreakB_cons_of_ne 'b' _ (by decide) (by decide)]
  rw [NoBreakB_cons_of_ne _ _ (if_bold_ne_nl b) (if_bold_ne_bs b)]
  rw [NoBreakB_bs_cons 'c' _ (by decide) (by decide)]
  rw [NoBreakB_cons_of_ne 'c' _ (by decide) (by decide)]
  rw [NoBreakB_append_inert color _ hcol]
  rw [NoBreakB_cons_of_ne '}' _ (by decide) (by decide)]

theorem findBold_cons_of_ne (c : Char) (rest : List Char) (h : ¬ c = '\\') :
    findBold (c :: rest) = findBold rest := by
  rw [findBold.eq_def]
  split <;> simp_all

theorem findBold_bs_cons (d : Char) (rest : List Char) (h : ¬ d = 'b') :
    findBold ('\\' :: d :: rest) = findBold (d :: rest) := by
  rw [findBold.eq_def]
  split <;>
    first
    | (rename_i heq; obtain ⟨rfl, rfl⟩ := heq; rfl)
    | simp_all

theorem findBold_append_inert (A B : List Char) (h : A.all inertChar = true) :
    findBold (A ++ B) = findBold B := by
  induction A with
  | nil => rfl
  | cons a A' ih =>
    rw [List.all_cons, Bool.and_eq_true] at h
    obtain ⟨ha, hA'⟩ := h
    obtain ⟨h1, _, _⟩ := inertChar_spec a ha
    rw [List.cons_append, findBold_cons_of_ne a _ h1, ih hA']

/-- Scanning a generated override tag for the bold directive yields exactly
the tag's own bold flag (the tag's `\b` comes before any text). -/
theorem findBold_styleTag_append (fam color l : List Char) (fs : Nat) (b : Bool)
    (hfam : fam.all inertChar = true) (_hcol : color.all inertChar = true) :
    findBold (styleTag fam fs b color ++ l) = some b := by
  have hdig : (natToChars fs).all inertChar = true :=
    natToChars_all inertChar natDigitChar_inert fs
  simp only [styleTag, List.cons_append, List.append_assoc, List.nil_append,
    List.singleton_append]
  rw [findBold_cons_of_ne '{' _ (by decide)]
  rw [findBold_bs_cons 'f' _ (by decide)]
  rw [findBold_cons_of_ne 'f' _ (by decide)]
  rw [findBold_cons_of_ne 'n' _ (by decide)]
  rw [findBold_append_inert fam _ hfam]
  rw [findBold_bs_cons 'f' _ (by decide)]
  rw [findBold_cons_of_ne 'f' _ (by decide)]
  rw [findBold_cons_of_ne 's' _ (by decide)]
  rw [findBold_append_inert _ _ hdig]
  cases b <;> rfl

theorem stripLeadTag_open (rest : List Char) :
    stripLeadTag ('{' :: rest) =
      (rest.dropWhile (fun c => !(c = '}'))).drop 1 := rfl

theorem dropWhile_cons_of_pos {p : Char → Bool} (c : Char) (l : List Char)
    (h : p c = true) : (c :: l).dropWhile p = l.dropWhile p := by
  simp [List.dropWhile_cons, h]

theorem dropWhile_append_of_all {p : Char → Bool} (A B : List Char)
    (h : A.all p = true) : (A ++ B).dropWhile p = B.dropWhile p := by
  induction A with
  | nil => rfl
  | cons a A' ih =>
    rw [List.all_cons, Bool.and_eq_true] at h
    obtain ⟨ha, hA'⟩ := h
    rw [List.cons_append, dropWhile_cons_of_pos a _ ha, ih hA']

theorem inert_ne_close (c : Char) (h : inertChar c = true) :
    (!(c = '}')) = true := by
  obtain ⟨_, _, h3⟩ := inertChar_spec c h
  simpa using h3

/-- Dropping the leading override tag of a generated run recovers exactly
the run's text. -/
theorem stripLeadTag_styleTag (fam color l : List Char) (fs : Nat) (b : Bool)
    (hfam : fam.all inertChar = true) (hcol : color.all inertChar = true) :
    stripLeadTag (styleTag fam fs b color ++ l) = l := by
  have hdig : (natToChars fs).all inertChar = true :=
    natToChars_all inertChar natDigitChar_inert fs
  have hfam' := all_imp inert_ne_close fam hfam
  have hcol' := all_imp inert_ne_close color hcol
  have hdig' := all_imp inert_ne_close (natToChars fs) hdig
  simp only [styleTag, List.cons_append, List.append_assoc, List.nil_append,
    List.singleton_append]
  rw [stripLeadTag_open]
  rw [dropWhile_cons_of_pos '\\' _ (by decide)]
  rw [dropWhile_cons_of_pos 'f' _ (by decide)]
  rw [dropWhile_cons_of_pos 'n' _ (by decide)]
  rw [dropWhile_append_of_all fam _ hfam']
  rw [dropWhile_cons_of_pos '\\' _ (by decide)]
  rw [dropWhile_cons_of_pos 'f' _ (by decide)]
  rw [dropWhile_cons_of_pos 's' _ (by decide)]
  rw [dropWhile_append_of_all _ _ hdig']
  rw [dropWhile_cons_of_pos '\\' _ (by decide)]
  rw [dropWhile_cons_of_pos 'b' _ (by decide)]
  rw [dropWhile_cons_of_pos _ _ (by cases b <;> decide)]
  rw [dropWhile_cons_of_pos '\\' _ (by decide)]
  rw [dropWhile_cons_of_pos 'c' _ (by decide)]
  rw [dropWhile_append_of_all color _ hcol']
  rw [List.dropWhile_cons]
  simp

/-! ### The shape of a styled event text -/

theorem format_line_eq (h : Nat) (zhF otherF : ℚ) (zhC otherC : List Char)
    (text : List Char) (b : Bool) :
    format_line h zhF otherF zhC otherC text b =
      styleTag (if b then ZH_FAM else EN_FAM)
        (if b then fsNat h zhF else fsNat h otherF) b
        (if b then zhC else otherC) ++ text := rfl

theorem if_fam_inert (b : Bool) :
    (if b then ZH_FAM else EN_FAM).all inertChar = true := by
  cases b <;> decide

theorem if_color_all {b : Bool} {zhC otherC : List Char}
    (hz : zhC.all inertChar = true) (ho : otherC.all inertChar = true) :
    (if b then zhC else otherC).all inertChar = true := by
  cases b <;> assumption

/-- The styled runs of `process_bilingual_event` are the first two raw
lines verbatim (or the single raw line): the styling step neither wraps,
reorders, nor filters them, and drops everything after the second line. -/
theorem runsOf_process_bilingual (text : List Char) (h : Nat) (zhF otherF : ℚ)
    (zhC otherC : List Char)
    (hz : zhC.all inertChar = true) (ho : otherC.all inertChar = true) :
    runsOf (process_bilingual_event text h zhF otherF zhC otherC) =
      (linesOf text).take 2 := by
  have hrun : ∀ (fam col run : List Char) (fs : Nat) (b : Bool),
      fam.all inertChar = true → col.all inertChar = true →
      NoBreakB run = true →
      NoBreakB (styleTag fam fs b col ++ run) = true := by
    intro fam col run fs b hf hc hr
    rw [NoBreakB_styleTag_append fam col run fs b hf hc]; exact hr
  rcases hL : linesOf text with _ | ⟨l0, _ | ⟨l1, rest⟩⟩
  · exact absurd hL (splitSubLines_ne_nil _)
  · have hl0 : NoBreakB l0 = true :=
      noBreak_of_mem_splitSubLines _ l0 (by
        rw [show splitSubLines (pyStrip (stripTags text)) = linesOf text from rfl, hL]
        exact List.mem_cons_self _ _)
    unfold process_bilingual_event
    rw [show splitSubLines (pyStrip (stripTags text)) = linesOf text from rfl, hL]
    simp only [runsOf]
    rw [splitSubLines_of_noBreak _
      (hrun _ _ l0 _ _ (if_fam_inert _) (if_color_all hz ho) hl0)]
    rw [List.map_singleton,
      stripLeadTag_styleTag _ _ l0 _ _ (if_fam_inert _) (if_color_all hz ho)]
    rfl
  · have hmem : ∀ l ∈ linesOf text, NoBreakB l = true := fun l hl =>
      noBreak_of_mem_splitSubLines _ l hl
    have hl0 : NoBreakB l0 = true := hmem l0 (by rw [hL]; exact List.mem_cons_self _ _)
    have hl1 : NoBreakB l1 = true := hmem l1 (by
      rw [hL]; exact List.mem_cons_of_mem _ (List.mem_cons_self _ _))
    unfold process_bilingual_event
    rw [show splitSubLines (pyStrip (stripTags text)) = linesOf text from rfl, hL]
    simp only [runsOf, format_line_eq]
    rw [splitSubLines_append_sep _ _
      (hrun _ _ l0 _ _ (if_fam_inert _) (if_color_all hz ho) hl0)]
    rw [splitSubLines_of_noBreak _
      (hrun _ _ l1 _ _ (if_fam_inert _) (if_color_all hz ho) hl1)]
    rw [List.map_cons, List.map_singleton]
    rw [stripLeadTag_styleTag _ _ l0 _ _ (if_fam_inert _) (if_color_all hz ho)]
    rw [stripLeadTag_styleTag _ _ l1 _ _ (if_fam_inert _) (if_color_all hz ho)]
    rfl

/-- The bold flags of the styled runs of `process_bilingual_event`: with two
or more raw lines each run's flag is its own line's language-detection
result; with a single raw line the flag is always `true`. -/
theorem boldsOf_process_bilingual (text : List Char) (h : Nat) (zhF otherF : ℚ)
    (zhC otherC : List Char)
    (hz : zhC.all inertChar = true) (ho : otherC.all inertChar = true) :
    boldsOf (process_bilingual_event text h zhF otherF zhC otherC) =
      match linesOf text with
      | l0 :: l1 :: _ => [some (containsCJK l0), some (containsCJK l1)]
      | [_] => [some true]
      | [] => [] := by
  have hrun : ∀ (fam col run : List Char) (fs : Nat) (b : Bool),
      fam.all inertChar = true → col.all inertChar = true →
      NoBreakB run = true →
      NoBreakB (styleTag fam fs b col ++ run) = true := by
    intro fam col run fs b hf hc hr
    rw [NoBreakB_styleTag_append fam col run fs b hf hc]; exact hr
  rcases hL : linesOf text with _ | ⟨l0, _ | ⟨l1, rest⟩⟩
  · exact absurd hL (splitSubLines_ne_nil _)
  · have hl0 : NoBreakB l0 = true :=
      noBreak_of_mem_splitSubLines _ l0 (by
        rw [show splitSubLines (pyStrip (stripTags text)) = linesOf text from rfl, hL]
        exact List.mem_cons_self _ _)
    unfold process_bilingual_event
    rw [show splitSubLines (pyStrip (stripTags text)) = linesOf text from rfl, hL]
    simp only [boldsOf]
    rw [splitSubLines_of_noBreak _
      (hrun _ _ l0 _ _ (if_fam_inert _) (if_color_all hz ho) hl0)]
    rw [List.map_singleton,
      findBold_styleTag_append _ _ l0 _ _ (if_fam_inert _) (if_color_all hz ho)]
  · have hmem : ∀ l ∈ linesOf text, NoBreakB l = true := fun l hl =>
      noBreak_of_mem_splitSubLines _ l hl
    have hl0 : NoBreakB l0 = true := hmem l0 (by rw [hL]; exact List.mem_cons_self _ _)
    have hl1 : NoBreakB l1 = true := hmem l1 (by
      rw [hL]; exact List.mem_cons_of_mem _ (List.mem_cons_self _ _))
    unfold process_bilingual_event
    rw [show splitSubLines (pyStrip (stripTags text)) = linesOf text from rfl, hL]
    simp only [boldsOf, format_line_eq]
    rw [splitSubLines_append_sep _ _
      (hrun _ _ l0 _ _ (if_fam_inert _) (if_color_all hz ho) hl0)]
    rw [splitSubLines_of_noBreak _
      (hrun _ _ l1 _ _ (if_fam_inert _) (if_color_all hz ho) hl1)]
    rw [List.map_cons, List.map_singleton]
    rw [findBold_styleTag_append _ _ l0 _ _ (if_fam_inert _) (if_color_all hz ho)]
    rw [findBold_styleTag_append _ _ l1 _ _ (if_fam_inert _) (if_color_all hz ho)]

/-! ### Claims -/

/-- A single CJK cue line of 20 characters, used as a concrete input. -/
def cjkLine20 : List Char := "你你你你你你你你你你你你你你你你你你你你".toList

/-- C1 (counterexample): on the 1920×1080 landscape frame (`coeff = 1.32`)
with `chinese_fontsize_factor = 0.045 > 0`, a 20-character CJK cue line is
emitted as a single run of weighted length 40, which exceeds
`coeff / fontSizeFactor = 29.33…` although the run has more than one
character: the styling step performs no character-weighted wrapping. -/
theorem claim_C1_counterexample :
    0 < (45 / 1000 : ℚ) ∧
    runsOf (process_bilingual_event cjkLine20 1080 (45 / 1000) (1 / 25)
      defaultZhColor defaultOtherColor) = [cjkLine20] ∧
    containsCJK cjkLine20 = true ∧
    1 < cjkLine20.length ∧
    (132 / 100 : ℚ) / (45 / 1000) < (weightedLen cjkLine20 : ℚ) := by
  refine ⟨by norm_num, ?_, by decide, by decide, ?_⟩
  · rw [runsOf_process_bilingual _ _ _ _ _ _ (by decide) (by decide)]
    decide
  · have hw : weightedLen cjkLine20 = 40 := by decide
    rw [hw]
    norm_num

/-- C1 (amended): the styling step performs no character-weighted wrapping
at all — every emitted run is one of the raw lines of the cue, verbatim, so
a CJK line may exceed `coeff / fontSizeFactor` weighted units regardless of
`fontSizeFactor`. -/
theorem claim_C1_amended (text : List Char) (h : Nat) (zhF otherF : ℚ)
    (zhC otherC : List Char)
    (hz : zhC.all inertChar = true) (ho : otherC.all inertChar = true) :
    ∀ r ∈ runsOf (process_bilingual_event text h zhF otherF zhC otherC),
      r ∈ linesOf text := by
  intro r hr
  rw [runsOf_process_bilingual text h zhF otherF zhC otherC hz ho] at hr
  exact List.take_subset 2 (linesOf text) hr

theorem claim_C1_amended_witness :
    "Hello".toList ∈ linesOf "Hello\\N你好".toList :=
  claim_C1_amended "Hello\\N你好".toList 1080 (45 / 1000) (1 / 25)
    defaultZhColor defaultOtherColor (by decide) (by decide) "Hello".toList
    (by rw [runsOf_process_bilingual _ _ _ _ _ _ (by decide) (by decide)]; decide)

/-- C7 (counterexample): a single-line non-CJK cue ("Hello") is classified
OTHER, yet its emitted inline directive carries bold `true` — the
single-line branch forces `\b1` regardless of the detected language, so the
bold flag is not `false` on every OTHER run. -/
theorem claim_C7_counterexample :
    containsCJK "Hello".toList = false ∧
    boldsOf (process_bilingual_event "Hello".toList 1080 (45 / 1000) (1 / 25)
      defaultZhColor defaultOtherColor) = [some true] := by
  refine ⟨by decide, ?_⟩
  rw [boldsOf_process_bilingual _ _ _ _ _ _ (by decide) (by decide)]
  decide

/-- C7 (amended): for cues with two or more raw lines each emitted run's
bold flag equals its line's CJK classification (true for CJK, false for
OTHER); for a single-line cue the bold flag is always true, regardless of
classification. -/
theorem claim_C7_amended (text : List Char) (h : Nat) (zhF otherF : ℚ)
    (zhC otherC : List Char)
    (hz : zhC.all inertChar = true) (ho : otherC.all inertChar = true) :
    (∀ l0 l1 rest, linesOf text = l0 :: l1 :: rest →
      boldsOf (process_bilingual_event text h zhF otherF zhC otherC) =
        [some (containsCJK l0), some (containsCJK l1)]) ∧
    (∀ l0, linesOf text = [l0] →
      boldsOf (process_bilingual_event text h zhF otherF zhC otherC) =
        [some true]) := by
  have hb := boldsOf_process_bilingual text h zhF otherF zhC otherC hz ho
  constructor
  · intro l0 l1 rest hL
    rw [hL] at hb
    exact hb
  · intro l0 hL
    rw [hL] at hb
    exact hb

theorem claim_C7_amended_witness :
    boldsOf (process_bilingual_event "Hello\\N你好".toList 1080 (45 / 1000)
        (1 / 25) defaultZhColor defaultOtherColor) =
      [some (containsCJK "Hello".toList), some (containsCJK "你好".toList)] :=
  (claim_C7_amended "Hello\\N你好".toList 1080 (45 / 1000) (1 / 25)
    defaultZhColor defaultOtherColor (by decide) (by decide)).1
    "Hello".toList "你好".toList [] (by decide)

/-- C8 (counterexample): on the cue text `"Hello\n\n你好"` the split yields
raw lines `["Hello", "", "你好"]`; the styling step neither discards the
empty line nor emits the third line — its runs are `["Hello", ""]`, not the
non-empty lines `["Hello", "你好"]`. -/
theorem claim_C8_counterexample :
    runsOf (process_bilingual_event "Hello\n\n你好".toList 1080 (45 / 1000)
      (1 / 25) defaultZhColor defaultOtherColor) =
        ["Hello".toList, ([] : List Char)] ∧
    (linesOf "Hello\n\n你好".toList).filter (fun l => !l.isEmpty) =
      ["Hello".toList, "你好".toList] ∧
    ¬ runsOf (process_bilingual_event "Hello\n\n你好".toList 1080 (45 / 1000)
      (1 / 25) defaultZhColor defaultOtherColor) =
        (linesOf "Hello\n\n你好".toList).filter (fun l => !l.isEmpty) := by
  have h1 : runsOf (process_bilingual_event "Hello\n\n你好".toList 1080
      (45 / 1000) (1 / 25) defaultZhColor defaultOtherColor) =
        ["Hello".toList, ([] : List Char)] := by
    rw [runsOf_process_bilingual _ _ _ _ _ _ (by decide) (by decide)]
    decide
  refine ⟨h1, by decide, ?_⟩
  rw [h1]
  decide

/-- C8 (amended): the styling step splits the tag-stripped, whitespace-
stripped text on line-break markers without discarding empty raw lines, and
emits exactly one styled run per raw line for the first two raw lines, in
order, joined with forced line breaks; raw lines beyond the second are
dropped. -/
theorem claim_C8_amended (text : List Char) (h : Nat) (zhF otherF : ℚ)
    (zhC otherC : List Char)
    (hz : zhC.all inertChar = true) (ho : otherC.all inertChar = true) :
    runsOf (process_bilingual_event text h zhF otherF zhC otherC) =
      (linesOf text).take 2 :=
  runsOf_process_bilingual text h zhF otherF zhC otherC hz ho

theorem claim_C8_amended_witness :
    runsOf (process_bilingual_event "Hello\\N你好".toList 1080 (45 / 1000)
      (1 / 25) defaultZhColor defaultOtherColor) =
        (linesOf "Hello\\N你好".toList).take 2 :=
  claim_C8_amended "Hello\\N你好".toList 1080 (45 / 1000) (1 / 25)
    defaultZhColor defaultOtherColor (by decide) (by decide)

/-- Embed run finishing with exit code `-22` and a non-empty output file. -/
def envCodeNeg22 : EmbedEnv :=
  { video_path := "/a/in.mp4".toList, output_path := "/a/out.mp4".toList,
    convertRaises := false, tempCreatedBeforeRaise := false,
    exitCode := -22, outputExists := true, outputSize := 1000 }

/-- C2 (counterexample): a run whose process exits with code `-22` (not 0)
and leaves a non-empty output still emits success with the output path and
a final progress of 100 — the "only if exit code 0" direction fails, since
`_on_finished` accepts `code == 0 or code == -22`. -/
theorem claim_C2_counterexample :
    (embed_run envCodeNeg22).signals =
      [Signal.progress 100, Signal.finishedSig "/a/out.mp4".toList] ∧
    ¬ envCodeNeg22.exitCode = 0 := by
  decide

/-- C2 (amended): for every run whose conversion step succeeds, the embedder
emits success — progress 100 followed by the job's final (possibly
`_new`-redirected) output path — if and only if the process exit code is 0
or −22 and the output file exists with non-zero size. -/
theorem claim_C2_amended (env : EmbedEnv) (hcv : env.convertRaises = false) :
    (embed_run env).signals =
        [Signal.progress 100,
          Signal.finishedSig (redirectTarget env.video_path env.output_path)] ↔
      ((env.exitCode = 0 ∨ env.exitCode = -22) ∧ env.outputExists = true ∧
        0 < env.outputSize) := by
  simp only [embed_run, hcv, Bool.false_eq_true, if_false, on_finished]
  split_ifs with h1 h2 h3 <;> simp_all

theorem claim_C2_amended_witness :
    (embed_run envCodeNeg22).signals =
      [Signal.progress 100,
        Signal.finishedSig
          (redirectTarget envCodeNeg22.video_path envCodeNeg22.output_path)] :=
  (claim_C2_amended envCodeNeg22 (by decide)).mpr (by decide)

/-- Embed run finishing with exit code 1 and an existing zero-byte output. -/
def envZeroByte : EmbedEnv :=
  { video_path := "/a/in.mp4".toList, output_path := "/a/out.mp4".toList,
    convertRaises := false, tempCreatedBeforeRaise := false,
    exitCode := 1, outputExists := true, outputSize := 0 }

/-- C3 (counterexample): when the process leaves an existing zero-byte
output file, the embedder does report the distinguishable empty-output
failure, but the zero-byte file still exists after the terminal error
callback — the first zero-output finish takes the retry branch, which does
not delete the file. -/
theorem claim_C3_counterexample :
    (embed_run envZeroByte).signals =
      [Signal.errorSig (ErrKind.emptyOutput 1)] ∧
    (embed_run envZeroByte).outputExistsAfter = true := by
  decide

/-- C3 (amended): a run whose process terminates with a missing or
zero-byte output reports the distinguishable empty-output failure, but the
output file state is left untouched: a zero-byte output file is not
removed (removal sits in the non-retry failure branch, which a first
zero-output finish never reaches). -/
theorem claim_C3_amended (env : EmbedEnv) (hcv : env.convertRaises = false)
    (hzero : env.outputExists = false ∨ env.outputSize = 0) :
    (embed_run env).signals =
      [Signal.errorSig (ErrKind.emptyOutput env.exitCode)] ∧
    (embed_run env).outputExistsAfter = env.outputExists := by
  rcases hzero with hz | hz <;>
    simp_all [embed_run, on_finished]

theorem claim_C3_amended_witness :
    (embed_run envZeroByte).signals =
      [Signal.errorSig (ErrKind.emptyOutput envZeroByte.exitCode)] ∧
    (embed_run envZeroByte).outputExistsAfter = envZeroByte.outputExists :=
  claim_C3_amended envZeroByte (by decide) (Or.inr (by decide))

/-- Embed run whose SRT→ASS conversion raises after the temporary track
file has been created. -/
def envConvertRaises : EmbedEnv :=
  { video_path := "/a/in.mp4".toList, output_path := "/a/out.mp4".toList,
    convertRaises := true, tempCreatedBeforeRaise := true,
    exitCode := 0, outputExists := false, outputSize := 0 }

/-- C4 (counterexample): when the track conversion raises after creating
the temporary track file, `embed` emits its terminal error but performs no
cleanup — the temporary file still exists, so the temp track is not removed
on every exit path. -/
theorem claim_C4_counterexample :
    (embed_run envConvertRaises).signals =
      [Signal.errorSig ErrKind.convertFailed] ∧
    (embed_run envConvertRaises).tempExistsAfter = true := by
  decide

/-- C4 (amended): the temporary track file is removed on every
process-finished path of an embed run and on every modelled (non-exception)
path of a preview; but an exception during embed's track conversion skips
cleanup, leaving the temporary file exactly when it had been created before
the exception. -/
theorem claim_C4_amended :
    (∀ env : EmbedEnv, env.convertRaises = false →
      (embed_run env).tempExistsAfter = false) ∧
    (∀ env : EmbedEnv, env.convertRaises = true →
      (embed_run env).tempExistsAfter = env.tempCreatedBeforeRaise) ∧
    (∀ penv : PreviewEnv, (create_preview_frame penv).tempExistsAfter = false) := by
  refine ⟨fun env hcv => ?_, fun env hcv => ?_, fun penv => ?_⟩
  · simp [embed_run, hcv]
  · simp [embed_run, hcv]
  · unfold create_preview_frame
    split_ifs <;> first | rfl | (cases penv.events <;> rfl)

theorem claim_C4_amended_witness :
    (embed_run envZeroByte).tempExistsAfter = false ∧
    (embed_run envConvertRaises).tempExistsAfter =
      envConvertRaises.tempCreatedBeforeRaise :=
  ⟨claim_C4_amended.1 envZeroByte (by decide),
    claim_C4_amended.2.1 envConvertRaises (by decide)⟩

/-- A light first cue and a visually heavier second cue. -/
def evLight : SubEvent := { start := 0, end_ := 1000, text := "a".toList }

/-- The heavier cue (three CJK characters, visual weight 6). -/
def evHeavy : SubEvent := { start := 2000, end_ := 3000, text := "你你你".toList }

/-- Preview environment whose track holds the light cue first. -/
def envPreviewTwo : PreviewEnv :=
  { ffmpegExists := true, videoExists := true, subExists := true,
    events := [evLight, evHeavy], probeResult := none,
    zhF := 45 / 1000, otherF := 1 / 25,
    zhC := defaultZhColor, otherC := defaultOtherColor,
    outputImageExists := true, outputImageSize := 100 }

/-- C5 (counterexample): with a track whose first cue has visual weight 1
and whose second has weight 6, the preview selects the first cue, not the
cue of maximum visual weight — the source simply takes `subs.events[0]`. -/
theorem claim_C5_counterexample :
    (create_preview_frame envPreviewTwo).first_sub = some evLight ∧
    evHeavy ∈ envPreviewTwo.events ∧
    weightedLen evLight.text < weightedLen evHeavy.text := by
  refine ⟨?_, by decide, by decide⟩
  rfl

/-- C5 (amended): the cue selected for the preview frame is always the
first cue of the track, regardless of visual weight; it is cloned to
`start = 0, end = 5000` and styled at the probed height. -/
theorem claim_C5_amended (env : PreviewEnv) (h1 : env.ffmpegExists = true)
    (h2 : env.videoExists = true) (h3 : env.subExists = true)
    (e : SubEvent) (es : List SubEvent) (hev : env.events = e :: es) :
    (create_preview_frame env).first_sub = some e ∧
    (create_preview_frame env).trackEvent = some
      { start := 0, end_ := 5000,
        text := process_bilingual_event e.text (probe_video_size env.probeResult).2
          env.zhF env.otherF env.zhC env.otherC } := by
  unfold create_preview_frame
  rw [h1, h2, h3, hev]
  exact ⟨rfl, rfl⟩

theorem claim_C5_amended_witness :
    (create_preview_frame envPreviewTwo).first_sub = some evLight ∧
    (create_preview_frame envPreviewTwo).trackEvent = some
      { start := 0, end_ := 5000,
        text := process_bilingual_event evLight.text
          (probe_video_size envPreviewTwo.probeResult).2
          envPreviewTwo.zhF envPreviewTwo.otherF
          envPreviewTwo.zhC envPreviewTwo.otherC } :=
  claim_C5_amended envPreviewTwo (by decide) (by decide) (by decide)
    evLight [evHeavy] (by decide)

/-- A cue starting at 12000 ms. -/
def ev12000 : SubEvent := { start := 12000, end_ := 15000, text := "你好".toList }

/-- Preview environment holding only the 12000 ms cue. -/
def envPreview12000 : PreviewEnv :=
  { ffmpegExists := true, videoExists := true, subExists := true,
    events := [ev12000], probeResult := some (1920, 1080),
    zhF := 45 / 1000, otherF := 1 / 25,
    zhC := defaultZhColor, otherC := defaultOtherColor,
    outputImageExists := true, outputImageSize := 100 }

/-- C6 (counterexample): for a cue starting at 12000 ms the seek target
passed to the tool is `12000 / 1000.0 = 12` seconds, not the
`12.5 = 12000 ms + 0.5 s` the claim requires — the source adds no 0.5 s
offset (and probes no duration to fall back on). -/
theorem claim_C6_counterexample :
    (create_preview_frame envPreview12000).seekTarget = some 12 ∧
    ¬ (12 : ℚ) = 25 / 2 := by
  constructor
  · show some ((((12000 : Nat) : ℚ)) / 1000) = some 12
    norm_num
  · norm_num

/-- C6 (amended): the seek target is exactly the selected (first) cue's
start time divided by 1000 — no 0.5 s offset is added and no
duration-based fallback exists (the probe never reports a duration). -/
theorem claim_C6_amended (env : PreviewEnv) (h1 : env.ffmpegExists = true)
    (h2 : env.videoExists = true) (h3 : env.subExists = true)
    (e : SubEvent) (es : List SubEvent) (hev : env.events = e :: es) :
    (create_preview_frame env).seekTarget = some ((e.start : ℚ) / 1000) := by
  unfold create_preview_frame
  rw [h1, h2, h3, hev]
  rfl

theorem claim_C6_amended_witness :
    (create_preview_frame envPreview12000).seekTarget =
      some ((ev12000.start : ℚ) / 1000) :=
  claim_C6_amended envPreview12000 (by decide) (by decide) (by decide)
    ev12000 [] (by decide)

/-- C9: on any probe failure the geometry falls back to `(1920, 1080)` (the
probe is total — every failure is caught), and the pipeline still produces
a styled track from the fallback geometry: one event per input cue, with
the original timings and the text styled at the fallback height 1080.  (The
probed geometry carries no duration component at all, matching "duration 0
= unknown".) -/
theorem claim_C9 :
    probe_video_size none = (1920, 1080) ∧
    ∀ (events : List SubEvent) (zhF otherF : ℚ) (zhC otherC : List Char),
      (convert_srt_to_ass none events zhF otherF zhC otherC).length =
        events.length ∧
      ∀ e ∈ convert_srt_to_ass none events zhF otherF zhC otherC,
        ∃ e₀ ∈ events, e.start = e₀.start ∧ e.end_ = e₀.end_ ∧
          e.text = process_bilingual_event e₀.text 1080 zhF otherF zhC otherC := by
  refine ⟨rfl, fun events zhF otherF zhC otherC =>
    ⟨by simp [convert_srt_to_ass], ?_⟩⟩
  intro e he
  simp only [convert_srt_to_ass, List.mem_map] at he
  obtain ⟨e₀, he₀, rfl⟩ := he
  exact ⟨e₀, he₀, rfl, rfl, rfl⟩

/-- An input cue for the fallback-geometry pipeline run. -/
def probeFallbackEvent : SubEvent := { start := 0, end_ := 1000, text := "hi".toList }

/-- The styled event the pipeline produces for it at the fallback height. -/
def probeFallbackStyled : SubEvent :=
  { start := 0, end_ := 1000,
    text := process_bilingual_event "hi".toList 1080 (45 / 1000) (1 / 25)
      defaultZhColor defaultOtherColor }

theorem claim_C9_witness :
    ∃ e₀ ∈ [probeFallbackEvent],
      probeFallbackStyled.start = e₀.start ∧
      probeFallbackStyled.end_ = e₀.end_ ∧
      probeFallbackStyled.text = process_bilingual_event e₀.text 1080
        (45 / 1000) (1 / 25) defaultZhColor defaultOtherColor :=
  (claim_C9.2 [probeFallbackEvent] (45 / 1000) (1 / 25)
      defaultZhColor defaultOtherColor).2 probeFallbackStyled
    (List.mem_singleton.mpr rfl)

/-- Any path splits into its `splitext` base and extension. -/
theorem splitext_append (p : List Char) :
    (splitext p).1 ++ (splitext p).2 = p := by
  unfold splitext
  rcases h : lastIndexOf '.' p with _ | d
  · simp
  · dsimp only
    split
    · exact List.take_append_drop _ _
    · simp

/-- C10: when the normalized input and output paths collide
case-insensitively, the embedder redirects the output to the path with
`_new` appended before the extension; the redirected path never equals the
input path (it is four characters longer), and any success callback of the
run reports exactly the redirected path. -/
theorem claim_C10 (env : EmbedEnv) (hcv : env.convertRaises = false)
    (hcoll : lowerList env.video_path = lowerList env.output_path) :
    (embed_run env).outputVideo =
      (splitext env.output_path).1 ++ "_new".toList ++
        (splitext env.output_path).2 ∧
    ¬ (embed_run env).outputVideo = env.video_path ∧
    ∀ p, Signal.finishedSig p ∈ (embed_run env).signals →
      p = (embed_run env).outputVideo := by
  have hout : (embed_run env).outputVideo =
      (splitext env.output_path).1 ++ "_new".toList ++
        (splitext env.output_path).2 := by
    simp [embed_run, hcv, redirectTarget, hcoll]
  refine ⟨hout, ?_, ?_⟩
  · intro hEq
    have hlen : env.video_path.length = env.output_path.length := by
      have := congrArg List.length hcoll
      simpa [lowerList] using this
    have hbe : (splitext env.output_path).1.length +
        (splitext env.output_path).2.length = env.output_path.length := by
      have := congrArg List.length (splitext_append env.output_path)
      simpa [List.length_append] using this
    rw [hout] at hEq
    have := congrArg List.length hEq
    simp only [List.length_append] at this
    have h4 : "_new".toList.length = 4 := by decide
    omega
  · intro p hp
    rw [hout]
    simp only [embed_run, hcv, Bool.false_eq_true, if_false, on_finished] at hp ⊢
    revert hp
    split_ifs <;> simp_all [redirectTarget, hcoll]

/-- Embed run whose output path equals the input path up to ASCII case. -/
def envCollide : EmbedEnv :=
  { video_path := "/a/b.mp4".toList, output_path := "/a/B.MP4".toList,
    convertRaises := false, tempCreatedBeforeRaise := false,
    exitCode := 0, outputExists := true, outputSize := 5 }

theorem claim_C10_witness :
    lowerList envCollide.video_path = lowerList envCollide.output_path ∧
    (embed_run envCollide).outputVideo =
      (splitext envCollide.output_path).1 ++ "_new".toList ++
        (splitext envCollide.output_path).2 ∧
    ¬ (embed_run envCollide).outputVideo = envCollide.video_path :=
  ⟨by decide, (claim_C10 envCollide (by decide) (by decide)).1,
    (claim_C10 envCollide (by decide) (by decide)).2.1⟩
